import Mathlib

/-!
Verification development for the FileManager-API transfer and archive engine.

The Go sources are shallowly embedded: paths are Lean strings, the relevant
functions from internal/utils/pathutils.go, internal/services
(extract_service.go, compress_service.go, the upload service) and the
progress store from internal/models are translated into executable Lean
definitions.  File systems are association lists from absolute path strings
to byte lists; bytes are modelled as naturals.  Go's int and int64 are
modelled as Int (the quantities involved stay far from the overflow range),
and Go's truncating integer division is Int.tdiv.
-/

namespace FileManager

/-- Splits a character list on the separator character, mirroring how Go's
path/filepath code scans a path element by element.  Matches the semantics
of strings.Split on "/": the empty list yields one empty segment. -/
def splitSep : List Char → List (List Char)
  | [] => [[]]
  | c :: cs =>
    let r := splitSep cs
    if c = '/' then [] :: r
    else
      match r with
      | [] => [[c]]
      | p :: ps => (c :: p) :: ps

/-- Joins segments with the separator, the inverse of splitSep. -/
def joinSep : List (List Char) → List Char
  | [] => []
  | [s] => s
  | s :: rest => s ++ '/' :: joinSep rest

/-- Core of Go's filepath.Clean: processes segments left to right keeping a
stack (acc, most recent first).  Empty and "." segments are dropped; ".."
pops a previous regular segment, is dropped at the root of an absolute
path, and is kept at the front of a relative path. -/
def cleanAux (abs : Bool) : List (List Char) → List (List Char) → List (List Char)
  | acc, [] => acc.reverse
  | acc, s :: rest =>
    if s = [] then cleanAux abs acc rest
    else if s = ['.'] then cleanAux abs acc rest
    else if s = ['.', '.'] then
      match acc with
      | [] => if abs then cleanAux abs [] rest else cleanAux abs [['.', '.']] rest
      | t :: acc' =>
        if t = ['.', '.'] then cleanAux abs (s :: t :: acc') rest
        else cleanAux abs acc' rest
    else cleanAux abs (s :: acc) rest

/-- Renders cleaned segments back into a path string body. -/
def render (abs : Bool) (segs : List (List Char)) : List Char :=
  if abs then '/' :: joinSep segs
  else if segs.isEmpty then ['.']
  else joinSep segs

/-- Whether a path string is absolute (starts with the separator). -/
def isAbs (p : String) : Bool :=
  match p.data with
  | '/' :: _ => true
  | _ => false

/-- Go's filepath.Clean on Unix: returns "." for the empty path, otherwise
normalizes the segments and renders the result. -/
def goClean (p : String) : String :=
  if p = "" then "."
  else ⟨render (isAbs p) (cleanAux (isAbs p) [] (splitSep p.data))⟩

/-- Go's filepath.Join on two elements: empty elements are skipped and the
joined string is cleaned.  Join of two empty strings is the empty string. -/
def goJoin (a b : String) : String :=
  if a = "" && b = "" then ""
  else if a = "" then goClean b
  else if b = "" then goClean a
  else goClean ⟨a.data ++ '/' :: b.data⟩

/-- SanitizePath from internal/utils/pathutils.go: cleans the path and trims
one leading separator (strings.TrimPrefix with "/"). -/
def SanitizePath (p : String) : String :=
  let c := goClean p
  match c.data with
  | '/' :: rest => ⟨rest⟩
  | _ => c

/-- Go's filepath.Abs relative to a given working directory: an absolute
path is cleaned, a relative one is joined to the working directory. -/
def goAbs (cwd p : String) : String :=
  if isAbs p then goClean p else goJoin cwd p

/-- Error values of internal/utils/pathutils.go. -/
inductive PathErr where
  | pathTraversal
  | outsideBasePath
  | relFailed
deriving Repr, DecidableEq

/-- ValidatePath from internal/utils/pathutils.go.  The working directory
parameter stands for the process state consulted by filepath.Abs; it is
irrelevant whenever the base path is absolute.  The final check is the
code's strings.HasPrefix(absPath, absBase), a plain string-prefix test. -/
def ValidatePath (cwd basePath requestedPath : String) : Except PathErr String :=
  let cleanBase := goClean basePath
  let cleanReq := SanitizePath requestedPath
  if cleanReq = "" ∨ cleanReq = "." then .ok cleanBase
  else
    let fullPath := goJoin cleanBase cleanReq
    let absPath := goAbs cwd fullPath
    let absBase := goAbs cwd cleanBase
    if absBase.data.isPrefixOf absPath.data then .ok absPath
    else .error .pathTraversal

/-- Segment view of an already cleaned path for the Rel computation: the
empty string has no segments, the root has a single empty segment, any
other absolute path contributes a leading empty segment, mirroring how
Go's filepath.Rel scans the cleaned strings separator by separator. -/
def relSegs (s : String) : List (List Char) :=
  if s = "" then []
  else if s = "/" then [[]]
  else splitSep s.data

/-- Common-prefix loop of Go's filepath.Rel: strips equal leading segments,
fails when the remaining base starts with "..", otherwise produces one ".."
per remaining base segment followed by the remaining target segments. -/
def relLoop : List (List Char) → List (List Char) → Except PathErr String
  | [], ts => .ok ⟨joinSep ts⟩
  | b :: bs, [] =>
    if b = ['.', '.'] then .error .relFailed
    else .ok ⟨joinSep ((b :: bs).map (fun _ => ['.', '.']))⟩
  | b :: bs, t :: ts =>
    if b = t then relLoop bs ts
    else if b = ['.', '.'] then .error .relFailed
    else .ok ⟨joinSep ((b :: bs).map (fun _ => ['.', '.']) ++ t :: ts)⟩

/-- Go's filepath.Rel on Unix for the cases reachable from this code base:
both paths are cleaned, equal paths yield ".", a base of "." becomes empty,
mixed absolute/relative inputs fail, and otherwise the segment loop runs. -/
def goRel (basepath targpath : String) : Except PathErr String :=
  let base := goClean basepath
  let targ := goClean targpath
  if targ = base then .ok "."
  else
    let base' := if base = "." then "" else base
    if (isAbs base' ≠ isAbs targ) then .error .relFailed
    else relLoop (relSegs base') (relSegs targ)

/-- GetRelativePath from internal/utils/pathutils.go: takes absolute forms,
computes filepath.Rel, and rejects a result that begins with ".." via the
code's strings.HasPrefix(rel, "..") string test. -/
def GetRelativePath (cwd basePath fullPath : String) : Except PathErr String :=
  let absBase := goAbs cwd basePath
  let absPath := goAbs cwd fullPath
  match goRel absBase absPath with
  | .error e => .error e
  | .ok rel =>
    if (['.', '.']).isPrefixOf rel.data then .error .outsideBasePath
    else .ok rel

/-- Characters of the last path element (everything after the final
separator), used by filepath.Dir, Base and Ext. -/
def lastElem (p : String) : List Char :=
  (p.data.reverse.takeWhile (· ≠ '/')).reverse

/-- Go's filepath.Dir: the part of the path up to and including the final
separator, cleaned; "." when there is no separator. -/
def goDir (p : String) : String :=
  goClean ⟨p.data.take (p.data.length - (lastElem p).length)⟩

/-- Go's filepath.Ext: the suffix of the last element starting at its final
dot, or the empty string when the last element has no dot. -/
def goExt (p : String) : String :=
  let rev := p.data.reverse.takeWhile (· ≠ '/')
  let pre := rev.takeWhile (· ≠ '.')
  if pre.length = rev.length then "" else ⟨'.' :: pre.reverse⟩

/-- Go's filepath.Base: "." for the empty path, "/" when the path consists
only of separators, otherwise the last element after stripping trailing
separators. -/
def goBase (p : String) : String :=
  if p = "" then "."
  else
    let stripped := (p.data.reverse.dropWhile (· = '/')).reverse
    if stripped = [] then "/"
    else ⟨(stripped.reverse.takeWhile (· ≠ '/')).reverse⟩

/-- Go's strings.TrimSuffix: removes one occurrence of the suffix. -/
def trimSuffix (s suf : String) : String :=
  if suf.data.isSuffixOf s.data then ⟨s.data.take (s.data.length - suf.data.length)⟩
  else s

/-- Candidate path built by GenerateUniqueName for a given counter value:
fmt.Sprintf("%s_%d%s", name, counter, ext) joined onto the directory. -/
def mkCandidate (dir name ext : String) (c : Nat) : String :=
  goJoin dir ⟨name.data ++ '_' :: (toString c).data ++ ext.data⟩

/-- Search loop of GenerateUniqueName.  The Go loop is unbounded; because
the set of existing paths is finite the loop always terminates, and the
fuel argument (always instantiated with one more than the number of
existing paths) makes that termination explicit. -/
def genLoop (ex : List String) (dir name ext : String) : Nat → Nat → String
  | 0, c => mkCandidate dir name ext c
  | fuel + 1, c =>
    let cand := mkCandidate dir name ext c
    if cand ∈ ex then genLoop ex dir name ext fuel (c + 1) else cand

/-- GenerateUniqueName from internal/utils/pathutils.go.  The file system is
modelled by the list of existing paths; PathExists is list membership. -/
def GenerateUniqueName (ex : List String) (path : String) : String :=
  if path ∈ ex then
    let dir := goDir path
    let ext := goExt path
    let name := trimSuffix (goBase path) ext
    genLoop ex dir name ext (ex.length + 1) 1
  else path

/-- Modelled from the spec: the descendant check the specification
prescribes for resolved paths, namely that resolved.startsWith(root) holds
using component-wise comparison of path segments, not naive string
prefixing.  Used only to compare the code's actual check against the
specified one. -/
def specWithinRoot (root p : String) : Bool :=
  (splitSep (goClean root).data).isPrefixOf (splitSep (goClean p).data)

/-! ## Progress store (internal/models, ProgressStore) -/

/-- Status values of a progress record. -/
inductive ProgressStatus where
  | pending
  | uploading
  | processing
  | completed
  | failed
deriving Repr, DecidableEq

/-- Progress record from internal/models.  The progress field is the Go
int percentage, uploadedBytes and totalBytes are int64. -/
structure Progress where
  id : String
  filename : String
  progress : Int
  uploadedBytes : Int
  totalBytes : Int
  status : ProgressStatus
  error : String
deriving Repr, DecidableEq

/-- The in-memory progress map, modelled as an association list; the Go map
holds at most one record per identifier. -/
abbrev ProgressStore := List (String × Progress)

/-- ProgressStore.Set: stores the record under the identifier, replacing an
existing entry for the same identifier. -/
def ProgressStore.Set (ps : ProgressStore) (id : String) (p : Progress) : ProgressStore :=
  if (ps.lookup id).isSome then
    ps.map (fun e => if e.1 = id then (id, p) else e)
  else (id, p) :: ps

/-- ProgressStore.Get: first record stored under the identifier. -/
def ProgressStore.Get (ps : ProgressStore) (id : String) : Option Progress :=
  ps.lookup id

/-- The in-place mutation ProgressStore.Update performs on a record: the
uploaded-byte count is overwritten with the given value, and the percentage
is recomputed (with Go's truncating int64 division) only when the total is
positive. -/
def updRecord (p : Progress) (uploadedBytes : Int) : Progress :=
  let p' := { p with uploadedBytes := uploadedBytes }
  if p'.totalBytes > 0 then
    { p' with progress := Int.tdiv (uploadedBytes * 100) p'.totalBytes }
  else p'

/-- ProgressStore.Update from internal/models: mutates the record stored
under the identifier when present, and does nothing otherwise. -/
def ProgressStore.Update (ps : ProgressStore) (id : String) (uploadedBytes : Int) : ProgressStore :=
  ps.map (fun e => if e.1 = id then (id, updRecord e.2 uploadedBytes) else e)

/-- The updateProgressError helper shared by the services: when a record is
present it is marked failed with the error text. -/
def ProgressStore.markFailed (ps : ProgressStore) (id : String) (msg : String) : ProgressStore :=
  ps.map (fun e =>
    if e.1 = id then (id, { e.2 with status := .failed, error := msg }) else e)

/-- The updateProgressCompleted helper shared by the services: when a record
is present it is marked completed with percentage 100 and the uploaded-byte
count forced to the total. -/
def ProgressStore.markCompleted (ps : ProgressStore) (id : String) : ProgressStore :=
  ps.map (fun e =>
    if e.1 = id then
      (id, { e.2 with status := .completed, progress := 100, uploadedBytes := e.2.totalBytes })
    else e)

/-! ## File system model

A file system is an association list from absolute path strings to file
contents (byte lists); writing prepends, so lookup sees the newest write,
which models creation with O_TRUNC overwrite semantics. -/

abbrev FS := List (String × List Nat)

/-- Writes a file, replacing any previous content at the same path. -/
def fsWrite (fs : FS) (p : String) (d : List Nat) : FS :=
  (p, d) :: fs.filter (fun e => e.1 ≠ p)

/-! ## Extraction (internal/services/extract_service.go) -/

/-- Service-level error values (ErrNotFound and friends). -/
inductive SvcErr where
  | notFound
  | ioFailure
  | path (e : PathErr)
deriving Repr, DecidableEq

/-- One entry of a zip archive: its declared name, whether it is a
directory entry, and its uncompressed bytes. -/
structure ZipEntry where
  name : String
  isDir : Bool
  data : List Nat
deriving Repr, DecidableEq

/-- The destination path extractFile computes for an entry:
filepath.Join(destPath, f.Name). -/
def extractEntryDest (destPath name : String) : String :=
  goJoin destPath name

/-- The traversal check of extractFile: the code's
filepath.HasPrefix(filePath, filepath.Clean(destPath)+"/"), a plain
string-prefix test on the joined path. -/
def extractCheck (destPath filePath : String) : Bool :=
  ((goClean destPath).data ++ ['/']).isPrefixOf filePath.data

/-- extractFile from internal/services/extract_service.go: computes the
destination path, rejects it when the traversal check fails, creates the
directory for a directory entry (directories are not tracked by the file
model), and otherwise streams the entry bytes into the destination file,
truncating any existing file at that path.  Progress-record updates and
ownership enforcement are omitted: they do not touch the file system. -/
def extractFile (destPath : String) (fs : FS) (e : ZipEntry) : Except PathErr FS :=
  let filePath := extractEntryDest destPath e.name
  if !(extractCheck destPath filePath) then .error .pathTraversal
  else if e.isDir then .ok fs
  else .ok (fsWrite fs filePath e.data)

/-- The extraction loop of Extract (lines 99 to 105): entries are processed
in order and the first failure aborts the loop, leaving the files already
extracted in place. -/
def extractLoop (destPath : String) : FS → List ZipEntry → FS × Option PathErr
  | fs, [] => (fs, none)
  | fs, e :: rest =>
    match extractFile destPath fs e with
    | .error err => (fs, some err)
    | .ok fs' => extractLoop destPath fs' rest

/-- Whether an entry passes the extraction traversal check. -/
def entryOk (destPath : String) (e : ZipEntry) : Bool :=
  extractCheck destPath (extractEntryDest destPath e.name)

/-- The file-system effect of extracting one entry that passed the check. -/
def writeEntry (destPath : String) (fs : FS) (e : ZipEntry) : FS :=
  if e.isDir then fs else fsWrite fs (extractEntryDest destPath e.name) e.data

/-! ## Compression (internal/services/compress_service.go) -/

/-- Resolution of one input path of Compress: the resolved absolute path
when validation succeeds and the path exists, and none otherwise.  The file
system is abstracted to the list of existing paths. -/
def resolveInput (cwd basePath : String) (ex : List String) (p : String) : Option String :=
  match ValidatePath cwd basePath p with
  | .error _ => none
  | .ok full => if full ∈ ex then some full else none

/-- The input-filter loop of Compress (lines 77 to 95): inputs that fail
validation or do not exist are skipped and the rest are appended in order. -/
def compressValidPaths (cwd basePath : String) (ex : List String) (paths : List String) :
    List String :=
  paths.foldl
    (fun acc p =>
      match resolveInput cwd basePath ex p with
      | none => acc
      | some full => acc ++ [full])
    []

/-- Compress from internal/services/compress_service.go, up to the point
where the archive inputs are fixed: the output path is validated and
deduplicated, the input list is filtered, and an empty filtered list is a
not-found failure.  The result pairs the final output path with the list of
archive input paths; the streaming zip writer, sizes and progress updates
are abstracted away (every archive entry comes from exactly this list). -/
def Compress (cwd basePath : String) (ex : List String) (paths : List String)
    (output : String) : Except SvcErr (String × List String) :=
  match ValidatePath cwd basePath output with
  | .error e => .error (.path e)
  | .ok outputPath =>
    let outputPath := if outputPath ∈ ex then GenerateUniqueName ex outputPath else outputPath
    let valid := compressValidPaths cwd basePath ex paths
    if valid = [] then .error .notFound
    else .ok (outputPath, valid)

/-! ## Chunked upload (upload service in internal/services) -/

/-- ChunkUpload session record.  The Go Chunks map from received index to
true is modelled by the list of received indices (kept duplicate-free by
insertion), and sizes are int64/int values modelled as Int. -/
structure ChunkUpload where
  id : String
  filename : String
  destination : String
  totalSize : Int
  chunkSize : Int
  totalChunks : Int
  chunks : List Nat
  tempDir : String
deriving Repr, DecidableEq

/-- Scratch storage for chunk files, keyed by temp directory and chunk
index.  The Go code names the chunk file string(rune('0'+index)); that
naming is injective for every index below 55248 (where the surrogate range
collapses to the replacement character), which covers every realistic chunk
count, so the model keys scratch files by the index itself. -/
abbrev Scratch := List ((String × Nat) × List Nat)

/-- Writes a scratch chunk file (os.WriteFile overwrites). -/
def scratchWrite (sc : Scratch) (k : String × Nat) (d : List Nat) : Scratch :=
  (k, d) :: sc.filter (fun e => e.1 ≠ k)

/-- Combined mutable state of the upload service: the chunk-session store,
the scratch chunk files, the destination file system and the progress
store. -/
structure UState where
  sessions : List (String × ChunkUpload)
  scratch : Scratch
  files : FS
  progress : ProgressStore
deriving Repr, DecidableEq

/-- Records an arrived chunk index: the Go map write
chunk.Chunks[chunkIndex] = true adds the index if it is new. -/
def insertIdx (l : List Nat) (i : Nat) : List Nat :=
  if i ∈ l then l else i :: l

/-- InitChunkedUpload: validates the destination, computes
totalChunks = (totalSize + chunkSize - 1) / chunkSize with truncating int64
division, creates the session (the uuid is a parameter; os.TempDir is
modelled as /tmp) and registers a pending progress record. -/
def InitChunkedUpload (cwd basePath filename destination : String)
    (totalSize chunkSize : Int) (uploadID : String) (st : UState) :
    Except PathErr (ChunkUpload × UState) :=
  match ValidatePath cwd basePath destination with
  | .error e => .error e
  | .ok destPath =>
    let totalChunks := Int.tdiv (totalSize + chunkSize - 1) chunkSize
    let tempDir := "/tmp/filemanager-chunks/" ++ uploadID
    let chunk : ChunkUpload :=
      ⟨uploadID, filename, destPath, totalSize, chunkSize, totalChunks, [], tempDir⟩
    let sessions := (uploadID, chunk) :: st.sessions.filter (fun e => e.1 ≠ uploadID)
    let progress := st.progress.Set uploadID
      ⟨uploadID, filename, 0, 0, totalSize, .pending, ""⟩
    .ok (chunk, { st with sessions := sessions, progress := progress })

/-- Reads and concatenates the scratch chunk files for indices i, i+1, ...
while they exist, stopping at the first missing one; the flag reports
whether every requested chunk was read.  This models the assembly loop of
finalizeChunkedUpload, which appends chunk files to the destination in
ascending index order and aborts on a read failure. -/
def assembleFrom (sc : Scratch) (tempDir : String) : Nat → Nat → List Nat × Bool
  | _, 0 => ([], true)
  | i, remaining + 1 =>
    match sc.lookup (tempDir, i) with
    | none => ([], false)
    | some d =>
      let r := assembleFrom sc tempDir (i + 1) remaining
      (d ++ r.1, r.2)

/-- finalizeChunkedUpload: a missing session is a not-found failure leaving
the state unchanged; otherwise the session is removed, the destination name
is deduplicated against the existing files, the chunks are concatenated in
ascending index order into the destination file (a read failure leaves the
partially assembled file and marks the record failed), the scratch
directory is removed and the record is marked completed. -/
def finalizeChunkedUpload (st : UState) (uploadID : String) : UState × Option SvcErr :=
  match st.sessions.lookup uploadID with
  | none => (st, some .notFound)
  | some chunk =>
    let st1 := { st with sessions := st.sessions.filter (fun e => e.1 ≠ uploadID) }
    let fp0 := goJoin chunk.destination chunk.filename
    let finalPath :=
      if ((st1.files.lookup fp0).isSome) then GenerateUniqueName (st1.files.map (·.1)) fp0
      else fp0
    let asm := assembleFrom st1.scratch chunk.tempDir 0 chunk.totalChunks.toNat
    let files := fsWrite st1.files finalPath asm.1
    if asm.2 then
      let scratch := st1.scratch.filter (fun e => e.1.1 ≠ chunk.tempDir)
      let progress := st1.progress.markCompleted uploadID
      ({ st1 with files := files, scratch := scratch, progress := progress }, none)
    else
      let progress := st1.progress.markFailed uploadID "read chunk failed"
      ({ st1 with files := files, progress := progress }, some .ioFailure)

/-- UploadChunk: a missing session is a not-found failure leaving the state
unchanged; otherwise the chunk bytes are written to scratch, the index is
recorded, the progress record is updated with
min(receivedCount * chunkSize, totalSize), and when the received count
reaches the expected count finalization runs synchronously. -/
def UploadChunk (st : UState) (uploadID : String) (chunkIndex : Nat) (data : List Nat) :
    UState × Option SvcErr :=
  match st.sessions.lookup uploadID with
  | none => (st, some .notFound)
  | some chunk =>
    let scratch := scratchWrite st.scratch (chunk.tempDir, chunkIndex) data
    let chunks' := insertIdx chunk.chunks chunkIndex
    let uploadedChunks := chunks'.length
    let chunk' := { chunk with chunks := chunks' }
    let sessions := st.sessions.map (fun e => if e.1 = uploadID then (uploadID, chunk') else e)
    let uploadedBytes := min ((uploadedChunks : Int) * chunk.chunkSize) chunk.totalSize
    let progress := st.progress.Update uploadID uploadedBytes
    let st' := { st with scratch := scratch, sessions := sessions, progress := progress }
    if (uploadedChunks : Int) = chunk.totalChunks then finalizeChunkedUpload st' uploadID
    else (st', none)

/-- Submits a sequence of indexed chunks to one session in order, stopping
at the first failure. -/
def runChunks (uploadID : String) : UState → List (Nat × List Nat) → UState × Option SvcErr
  | st, [] => (st, none)
  | st, (i, d) :: rest =>
    match UploadChunk st uploadID i d with
    | (st', none) => runChunks uploadID st' rest
    | (st', some e) => (st', some e)

/-! ## General lookup lemmas for the association-list stores -/

theorem lookup_cons_eq {α β : Type} [DecidableEq α] [BEq α] [LawfulBEq α]
    (k a : α) (b : β) (t : List (α × β)) :
    List.lookup k ((a, b) :: t) = if a = k then some b else List.lookup k t := by
  rw [List.lookup_cons]
  by_cases h : a = k
  · simp [h]
  · have : (k == a) = false := beq_false_of_ne (Ne.symm h)
    simp [this, h]

theorem lookup_filter_ne {α β : Type} [DecidableEq α] [BEq α] [LawfulBEq α]
    (l : List (α × β)) (k k' : α)
    (h : k ≠ k') : (l.filter (fun e => e.1 ≠ k')).lookup k = l.lookup k := by
  induction l with
  | nil => rfl
  | cons e t ih =>
    rcases e with ⟨a, b⟩
    simp only [decide_not] at ih ⊢
    by_cases he : a = k'
    · rw [List.filter_cons, if_neg (by simp [he])]
      rw [lookup_cons_eq, if_neg (fun hk : a = k => h (hk ▸ he))]
      exact ih
    · rw [List.filter_cons, if_pos (by simp [he])]
      rw [lookup_cons_eq, lookup_cons_eq]
      by_cases hk : a = k
      · simp [hk]
      · simp only [hk, ite_false]
        exact ih

theorem lookup_map_set {α β : Type} [DecidableEq α] [BEq α] [LawfulBEq α]
    (l : List (α × β)) (k : α) (f : β → β) :
    (l.map (fun e => if e.1 = k then (k, f e.2) else e)).lookup k
      = (l.lookup k).map f := by
  induction l with
  | nil => rfl
  | cons e t ih =>
    rcases e with ⟨a, b⟩
    by_cases he : a = k
    · simp only [List.map_cons, he, ite_true]
      rw [lookup_cons_eq, lookup_cons_eq]
      simp [he]
    · simp only [List.map_cons, ite_false, he]
      rw [lookup_cons_eq, lookup_cons_eq]
      simp only [he, ite_false]
      exact ih

theorem map_set_absent {α β : Type} [DecidableEq α] [BEq α] [LawfulBEq α]
    (l : List (α × β)) (k : α) (f : β → β)
    (h : l.lookup k = none) :
    l.map (fun e => if e.1 = k then (k, f e.2) else e) = l := by
  induction l with
  | nil => rfl
  | cons e t ih =>
    rcases e with ⟨a, b⟩
    rw [lookup_cons_eq] at h
    by_cases he : a = k
    · rw [if_pos he] at h
      exact absurd h (by simp)
    · rw [if_neg he] at h
      simp only [List.map_cons, he, ite_false]
      rw [ih h]

/-! ## Claim theorems -/

/-- C1: the sandbox descendant check of ValidatePath is the naive
strings.HasPrefix, not the component-wise comparison the claim describes.
On root /home/alice the request ../alice-2 is accepted and the returned
path /home/alice-2 is a sibling of the root, outside it component-wise;
a request containing a resolvable .. segment and an absolute-form request
are accepted as well instead of being rejected. -/
theorem validatePath_sibling_escape :
    ValidatePath "/x" "/home/alice" "../alice-2" = .ok "/home/alice-2"
      ∧ specWithinRoot "/home/alice" "/home/alice-2" = false
      ∧ ValidatePath "/x" "/home/alice" "a/../b" = .ok "/home/alice/b"
      ∧ ValidatePath "/x" "/home/alice" "/etc/passwd" = .ok "/home/alice/etc/passwd" :=
  ⟨rfl, rfl, rfl, rfl⟩

/-- C10: ProgressStore.Update on an identifier with no record is a silent
no-op: the store is returned unchanged. -/
theorem progressStore_update_absent (ps : ProgressStore) (id : String) (v : Int)
    (h : ps.lookup id = none) : ps.Update id v = ps :=
  map_set_absent ps id (fun p => updRecord p v) h

/-- Witness for C10 at a concrete store without the identifier. -/
theorem progressStore_update_absent_witness :
    ([("u", (⟨"u", "f", 0, 0, 100, .uploading, ""⟩ : Progress))].lookup "zz"
        = (none : Option Progress))
      ∧ ProgressStore.Update [("u", ⟨"u", "f", 0, 0, 100, .uploading, ""⟩)] "zz" 5
        = [("u", ⟨"u", "f", 0, 0, 100, .uploading, ""⟩)] :=
  ⟨rfl, progressStore_update_absent _ "zz" 5 rfl⟩

/-- C8: submitting a chunk or finalizing against a session identifier that
is not in the chunk-session store fails with the not-found error and leaves
the whole state (sessions, scratch files, file system, progress store)
unchanged. -/
theorem chunk_missing_session (st : UState) (uploadID : String) (i : Nat) (d : List Nat)
    (h : st.sessions.lookup uploadID = none) :
    UploadChunk st uploadID i d = (st, some .notFound)
      ∧ finalizeChunkedUpload st uploadID = (st, some .notFound) := by
  constructor
  · unfold UploadChunk
    rw [h]
  · unfold finalizeChunkedUpload
    rw [h]

/-- Witness for C8 at a concrete state holding an unrelated session. -/
theorem chunk_missing_session_witness :
    (UState.mk [("other", ⟨"other", "f", "/b", 4, 2, 2, [], "/tmp/t"⟩)] [] [] []).sessions.lookup
        "missing" = none
      ∧ UploadChunk (UState.mk [("other", ⟨"other", "f", "/b", 4, 2, 2, [], "/tmp/t"⟩)] [] [] [])
          "missing" 0 [1]
        = (UState.mk [("other", ⟨"other", "f", "/b", 4, 2, 2, [], "/tmp/t"⟩)] [] [] [],
           some .notFound) :=
  ⟨rfl,
    (chunk_missing_session
      (UState.mk [("other", ⟨"other", "f", "/b", 4, 2, 2, [], "/tmp/t"⟩)] [] [] [])
      "missing" 0 [1] rfl).1⟩

/-- C9: resubmitting an already-received chunk index (while the session is
still incomplete) is idempotent on session state: the stored session is
unchanged, no finalization happens (the session stays in the store and the
file system is untouched), and the progress update reports
min(receivedCount * chunkSize, totalSize) for the unchanged count. -/
theorem uploadChunk_duplicate_idempotent (st : UState) (uploadID : String) (i : Nat)
    (d : List Nat) (c : ChunkUpload)
    (hs : st.sessions.lookup uploadID = some c) (hi : i ∈ c.chunks)
    (hlt : (c.chunks.length : Int) ≠ c.totalChunks) :
    ∃ st', UploadChunk st uploadID i d = (st', none)
      ∧ st'.sessions.lookup uploadID = some c
      ∧ st'.files = st.files
      ∧ st'.progress
          = st.progress.Update uploadID (min ((c.chunks.length : Int) * c.chunkSize) c.totalSize) := by
  unfold UploadChunk
  rw [hs]
  have hins : insertIdx c.chunks i = c.chunks := by
    unfold insertIdx
    simp [hi]
  simp only [hins]
  rw [if_neg hlt]
  refine ⟨_, rfl, ?_, rfl, rfl⟩
  have := lookup_map_set st.sessions uploadID (fun _ => { c with chunks := c.chunks })
  simpa [hs] using this

/-- Witness for C9 at a concrete incomplete session. -/
theorem uploadChunk_duplicate_idempotent_witness :
    ∃ st', UploadChunk (UState.mk [("u", ⟨"u", "f", "/b", 6, 2, 3, [0], "/tmp/t"⟩)] [] [] [])
        "u" 0 [5] = (st', none)
      ∧ st'.sessions.lookup "u" = some ⟨"u", "f", "/b", 6, 2, 3, [0], "/tmp/t"⟩
      ∧ st'.files = []
      ∧ st'.progress = [] :=
  match uploadChunk_duplicate_idempotent
      (UState.mk [("u", ⟨"u", "f", "/b", 6, 2, 3, [0], "/tmp/t"⟩)] [] [] [])
      "u" 0 [5] ⟨"u", "f", "/b", 6, 2, 3, [0], "/tmp/t"⟩ rfl (by decide) (by decide) with
  | ⟨st', h1, h2, h3, h4⟩ => ⟨st', h1, h2, h3, h4⟩

/-! ### C4: progress update semantics -/

theorem progress_lookup_update (ps : ProgressStore) (id : String) (v : Int) :
    (ps.Update id v).lookup id = (ps.lookup id).map (fun p => updRecord p v) :=
  lookup_map_set ps id (fun p => updRecord p v)

theorem updRecord_totalBytes (p : Progress) (v : Int) :
    (updRecord p v).totalBytes = p.totalBytes := by
  unfold updRecord
  by_cases h : p.totalBytes > 0 <;> simp [h]

theorem updRecord_status (p : Progress) (v : Int) :
    (updRecord p v).status = p.status := by
  unfold updRecord
  by_cases h : p.totalBytes > 0 <;> simp [h]

theorem updRecord_uploadedBytes (p : Progress) (v : Int) :
    (updRecord p v).uploadedBytes = v := by
  unfold updRecord
  by_cases h : p.totalBytes > 0 <;> simp [h]

theorem updRecord_progress (p : Progress) (v : Int) :
    (updRecord p v).progress
      = if p.totalBytes > 0 then Int.tdiv (v * 100) p.totalBytes else p.progress := by
  unfold updRecord
  by_cases h : p.totalBytes > 0 <;> simp [h]

/-- C4, counterexample: two Update calls with value 5 leave the
transferred-byte count at 5, not at the sum 10 of the two deltas: the
update argument is an absolute cumulative count, not a delta. -/
theorem progress_update_not_sum :
    (((ProgressStore.Update
          (ProgressStore.Update [("u", ⟨"u", "f", 0, 0, 100, .uploading, ""⟩)] "u" 5)
          "u" 5).lookup "u").map Progress.uploadedBytes) = some 5
      ∧ (5 : Int) ≠ 5 + 5 :=
  ⟨rfl, by decide⟩

/-- C4, amended: ProgressStore.Update overwrites the transferred-byte count
with the value passed (callers pass the cumulative count), so after a
nonempty sequence of updates the record holds the last value; the
percentage is the truncating division (floor, for the non-negative values
in use) of transferred times 100 by the total when the total is positive,
and is untouched otherwise, so the division is never executed with a zero
total. -/
theorem progress_updates_last (id : String) (vs : List Int) (hvs : vs ≠ [])
    (ps : ProgressStore) (p0 : Progress) (hp : ps.lookup id = some p0) :
    ∃ q, (vs.foldl (fun s v => ProgressStore.Update s id v) ps).lookup id = some q
      ∧ q.uploadedBytes = vs.getLast hvs
      ∧ q.totalBytes = p0.totalBytes
      ∧ q.status = p0.status
      ∧ q.progress = (if p0.totalBytes > 0
          then Int.tdiv (vs.getLast hvs * 100) p0.totalBytes else p0.progress) := by
  induction vs generalizing ps p0 with
  | nil => exact absurd rfl hvs
  | cons v vs' ih =>
    rcases Decidable.em (vs' = []) with h' | h'
    · subst h'
      refine ⟨updRecord p0 v, ?_, ?_, ?_, ?_, ?_⟩
      · simp only [List.foldl]
        rw [progress_lookup_update, hp]
        rfl
      · simp [updRecord_uploadedBytes]
      · simp [updRecord_totalBytes]
      · simp [updRecord_status]
      · simp [updRecord_progress]
    · have hstep : (ProgressStore.Update ps id v).lookup id = some (updRecord p0 v) := by
        rw [progress_lookup_update, hp]; rfl
      obtain ⟨q, hq, h1, h2, h3, h4⟩ := ih h' (ProgressStore.Update ps id v) (updRecord p0 v) hstep
      refine ⟨q, ?_, ?_, ?_, ?_, ?_⟩
      · simpa using hq
      · rwa [List.getLast_cons h']
      · rwa [updRecord_totalBytes] at h2
      · rwa [updRecord_status] at h3
      · rw [List.getLast_cons h']
        rw [updRecord_totalBytes] at h4
        by_cases hT : p0.totalBytes > 0
        · rw [if_pos hT] at h4 ⊢
          exact h4
        · rw [if_neg hT] at h4 ⊢
          rw [h4, updRecord_progress, if_neg hT]

/-- Witness for the amended C4 at a concrete record and update sequence. -/
theorem progress_updates_last_witness :
    ∃ q, ([5, 37].foldl (fun s v => ProgressStore.Update s "u" v)
          [("u", ⟨"u", "f", 0, 0, 100, .uploading, ""⟩)]).lookup "u" = some q
      ∧ q.uploadedBytes = 37 ∧ q.progress = 37 := by
  obtain ⟨q, hq, h1, _, _, h4⟩ :=
    progress_updates_last "u" [5, 37] (by decide)
      [("u", ⟨"u", "f", 0, 0, 100, .uploading, ""⟩)]
      ⟨"u", "f", 0, 0, 100, .uploading, ""⟩ rfl
  refine ⟨q, hq, by simpa using h1, ?_⟩
  rw [h4]
  simp only [List.getLast]
  norm_num
  rfl

/-! ### C5: filename collision handling -/

/-- The candidate name GenerateUniqueName tries for a given counter. -/
def uniqueCandidate (path : String) (c : Nat) : String :=
  mkCandidate (goDir path) (trimSuffix (goBase path) (goExt path)) (goExt path) c

theorem genLoop_first_unused (ex : List String) (dir name ext : String) :
    ∀ (fuel start c : Nat), start ≤ c → c < start + fuel →
      (∀ j, start ≤ j → j < c → mkCandidate dir name ext j ∈ ex) →
      mkCandidate dir name ext c ∉ ex →
      genLoop ex dir name ext fuel start = mkCandidate dir name ext c := by
  intro fuel
  induction fuel with
  | zero =>
    intro start c h1 h2 _ _
    omega
  | succ f ih =>
    intro start c h1 h2 hmem hfree
    unfold genLoop
    rcases Nat.eq_or_lt_of_le h1 with he | hlt
    · subst he
      simp [hfree]
    · have hs : mkCandidate dir name ext start ∈ ex := hmem start le_rfl hlt
      simp only [hs, if_pos]
      exact ih (start + 1) c hlt (by omega) (fun j hj1 hj2 => hmem j (by omega) hj2) hfree

/-- C5, counterexample: an archive entry whose target path already exists
is written in place (the existing file is truncated and replaced), with no
numeric suffix; the dedup contract the claim states would have produced the
_1 sibling instead. -/
theorem extract_overwrites_existing :
    extractLoop "/d" [("/d/a.txt", [7])] [⟨"a.txt", false, [1]⟩] = ([("/d/a.txt", [1])], none)
      ∧ GenerateUniqueName ["/d/a.txt"] "/d/a.txt" = "/d/a_1.txt"
      ∧ ("/d/a.txt" : String) ≠ "/d/a_1.txt" :=
  ⟨rfl, rfl, by decide⟩

/-- C5, amended: GenerateUniqueName (used by single-file uploads, chunked
finalization and the compress output) picks the first unused numeric suffix
placed before the extension, but archive extraction never deduplicates: a
file entry that passes the traversal check is written to the joined
destination path regardless of whether that path already exists,
overwriting any existing file. -/
theorem unique_name_first_unused_extract_overwrites :
    (∀ (ex : List String) (path : String) (c : Nat),
      path ∈ ex → 1 ≤ c → c ≤ ex.length + 1 →
      uniqueCandidate path c ∉ ex →
      (∀ j, 1 ≤ j → j < c → uniqueCandidate path j ∈ ex) →
      GenerateUniqueName ex path = uniqueCandidate path c)
    ∧ (∀ (dest : String) (fs : FS) (e : ZipEntry),
        e.isDir = false → entryOk dest e = true →
        extractFile dest fs e = .ok (fsWrite fs (extractEntryDest dest e.name) e.data)) := by
  constructor
  · intro ex path c hmem h1 hb hfree hmin
    unfold GenerateUniqueName
    rw [if_pos hmem]
    exact genLoop_first_unused ex _ _ _ (ex.length + 1) 1 c h1 (by omega)
      (fun j hj1 hj2 => hmin j hj1 hj2) hfree
  · intro dest fs e hdir hok
    unfold entryOk at hok
    simp [extractFile, hok, hdir]

/-- Witness for the amended C5: with name.ext and name_1.ext existing the
next creation picks name_2.ext, and extraction writes over an existing
target in place. -/
theorem unique_name_first_unused_witness :
    GenerateUniqueName ["n.txt", "n_1.txt"] "n.txt" = "n_2.txt"
      ∧ extractFile "/d" [("/d/a.txt", [7])] ⟨"a.txt", false, [1]⟩ = .ok [("/d/a.txt", [1])] := by
  constructor
  · have h := unique_name_first_unused_extract_overwrites.1 ["n.txt", "n_1.txt"] "n.txt" 2
      (by decide) (by decide) (by decide) (by decide) (by decide)
    rw [h]
    rfl
  · have h := unique_name_first_unused_extract_overwrites.2 "/d" [("/d/a.txt", [7])]
      ⟨"a.txt", false, [1]⟩ rfl rfl
    rw [h]
    rfl

/-! ### C7: compress input filtering -/

theorem compressValidPaths_eq_filterMap (cwd basePath : String) (ex : List String)
    (paths : List String) :
    compressValidPaths cwd basePath ex paths
      = paths.filterMap (resolveInput cwd basePath ex) := by
  have key : ∀ (l : List String) (acc : List String),
      l.foldl (fun acc p =>
        match resolveInput cwd basePath ex p with
        | none => acc
        | some full => acc ++ [full]) acc
        = acc ++ l.filterMap (resolveInput cwd basePath ex) := by
    intro l
    induction l with
    | nil => intro acc; simp
    | cons p rest ih =>
      intro acc
      cases hr : resolveInput cwd basePath ex p with
      | none => simp [List.foldl, hr, ih, List.filterMap_cons]
      | some full => simp [List.foldl, hr, ih, List.filterMap_cons]
  simpa using key paths []

/-- C7, counterexample: when every input path is invalid the batch does not
produce an archive built from the (empty) remainder; it fails with the
not-found error. -/
theorem compress_all_invalid_fails :
    Compress "/x" "/b" ["/b/good"] ["nope"] "out.zip" = .error .notFound :=
  rfl

/-- C7, amended: inputs that fail sandbox resolution or do not exist are
silently skipped and the archive is built, in order, from exactly the
resolutions of the remaining valid inputs, provided at least one input is
valid; appending an invalid input to a batch leaves the result unchanged.
When no input is valid the batch fails with a not-found error. -/
theorem compress_skips_invalid (cwd basePath : String) (ex : List String)
    (paths : List String) (output op : String)
    (hout : ValidatePath cwd basePath output = .ok op)
    (hsome : paths.filterMap (resolveInput cwd basePath ex) ≠ []) :
    Compress cwd basePath ex paths output
      = .ok ((if op ∈ ex then GenerateUniqueName ex op else op),
             paths.filterMap (resolveInput cwd basePath ex))
    ∧ ∀ (p : String), resolveInput cwd basePath ex p = none →
        Compress cwd basePath ex (paths ++ [p]) output
          = Compress cwd basePath ex paths output := by
  have main : ∀ (ps : List String), ps.filterMap (resolveInput cwd basePath ex) ≠ [] →
      Compress cwd basePath ex ps output
        = .ok ((if op ∈ ex then GenerateUniqueName ex op else op),
               ps.filterMap (resolveInput cwd basePath ex)) := by
    intro ps hne
    unfold Compress
    rw [hout]
    simp only [compressValidPaths_eq_filterMap]
    rw [if_neg hne]
  refine ⟨main paths hsome, ?_⟩
  intro p hp
  have happ : (paths ++ [p]).filterMap (resolveInput cwd basePath ex)
      = paths.filterMap (resolveInput cwd basePath ex) := by
    simp [List.filterMap_append, hp]
  rw [main paths hsome, main (paths ++ [p]) (by rw [happ]; exact hsome), happ]

/-- Witness for the amended C7 at a concrete batch with valid and invalid
inputs. -/
theorem compress_skips_invalid_witness :
    Compress "/x" "/b" ["/b/good"] ["good", "bad"] "out.zip" = .ok ("/b/out.zip", ["/b/good"])
      ∧ Compress "/x" "/b" ["/b/good"] ["good", "bad", "nope"] "out.zip"
        = Compress "/x" "/b" ["/b/good"] ["good", "bad"] "out.zip" := by
  have h := compress_skips_invalid "/x" "/b" ["/b/good"] ["good", "bad"] "out.zip" "/b/out.zip"
    rfl (by decide)
  constructor
  · rw [h.1]
    rfl
  · exact h.2 "nope" rfl

/-! ### C2: extraction traversal defense -/

theorem splitSep_ne_nil (l : List Char) : splitSep l ≠ [] := by
  cases l with
  | nil => simp [splitSep]
  | cons c cs =>
    unfold splitSep
    by_cases h : c = '/'
    · simp [h]
    · simp only [h, ite_false]
      cases splitSep cs with
      | nil => simp
      | cons p ps => simp

theorem splitSep_cons (c : Char) (cs : List Char) :
    splitSep (c :: cs) =
      if c = '/' then [] :: splitSep cs
      else
        match splitSep cs with
        | [] => [[c]]
        | p :: ps => (c :: p) :: ps := rfl

theorem splitSep_append (a b : List Char) :
    splitSep (a ++ '/' :: b) = splitSep a ++ splitSep b := by
  induction a with
  | nil =>
    rw [List.nil_append, splitSep_cons]
    simp [splitSep]
  | cons c cs ih =>
    rw [List.cons_append, splitSep_cons, splitSep_cons, ih]
    by_cases h : c = '/'
    · simp [h]
    · simp only [h, ite_false]
      cases hs : splitSep cs with
      | nil => exact absurd hs (splitSep_ne_nil cs)
      | cons p ps => simp [List.cons_append]

theorem extract_written_descendant (dest name : String)
    (h : extractCheck dest (extractEntryDest dest name) = true) :
    ∃ extra, extra ≠ [] ∧
      splitSep (extractEntryDest dest name).data = splitSep (goClean dest).data ++ extra := by
  unfold extractCheck at h
  obtain ⟨rest, hrest⟩ := List.isPrefixOf_iff_prefix.mp h
  refine ⟨splitSep rest, splitSep_ne_nil rest, ?_⟩
  have : (extractEntryDest dest name).data = (goClean dest).data ++ '/' :: rest := by
    rw [← hrest]
    simp
  rw [this, splitSep_append]

theorem extractFile_check_ok (dest : String) (fs : FS) (e : ZipEntry)
    (hok : entryOk dest e = true) :
    extractFile dest fs e = .ok (writeEntry dest fs e) := by
  unfold entryOk at hok
  by_cases hd : e.isDir
  · simp [extractFile, writeEntry, hok, hd]
  · simp [extractFile, writeEntry, hok, hd]

theorem extractFile_check_fails (dest : String) (fs : FS) (e : ZipEntry)
    (hbad : entryOk dest e = false) :
    extractFile dest fs e = .error .pathTraversal := by
  unfold entryOk at hbad
  simp [extractFile, hbad]

theorem extractLoop_characterization (dest : String) (entries : List ZipEntry) :
    ∀ fs, extractLoop dest fs entries
      = ((entries.takeWhile (entryOk dest)).foldl (writeEntry dest) fs,
         if entries.all (entryOk dest) then none else some .pathTraversal) := by
  induction entries with
  | nil => intro fs; simp [extractLoop]
  | cons e rest ih =>
    intro fs
    cases hok : entryOk dest e with
    | true =>
      unfold extractLoop
      rw [extractFile_check_ok dest fs e hok]
      simp only [List.takeWhile_cons, hok, ite_true, List.foldl_cons, List.all_cons,
        Bool.true_and]
      exact ih (writeEntry dest fs e)
    | false =>
      unfold extractLoop
      rw [extractFile_check_fails dest fs e hok]
      simp [List.takeWhile_cons, hok]

theorem mem_foldl_writeEntry (dest : String) (l : List ZipEntry) :
    ∀ (fs : FS) (p : String) (d : List Nat),
      (p, d) ∈ l.foldl (writeEntry dest) fs →
      (p, d) ∈ fs ∨ ∃ e ∈ l, e.isDir = false ∧ p = extractEntryDest dest e.name := by
  induction l with
  | nil =>
    intro fs p d h
    exact Or.inl (by simpa using h)
  | cons e rest ih =>
    intro fs p d h
    rw [List.foldl_cons] at h
    rcases ih (writeEntry dest fs e) p d h with hin | ⟨e', he', h1, h2⟩
    · unfold writeEntry at hin
      by_cases hd : e.isDir
      · rw [if_pos hd] at hin
        exact Or.inl hin
      · rw [if_neg hd] at hin
        unfold fsWrite at hin
        rcases List.mem_cons.mp hin with heq | hmem
        · right
          refine ⟨e, List.mem_cons_self e rest, by simpa using hd, ?_⟩
          exact congrArg Prod.fst heq
        · exact Or.inl (List.mem_filter.mp hmem).1
    · exact Or.inr ⟨e', List.mem_cons_of_mem e he', h1, h2⟩

/-- C2, amended: extraction is a hard failure on the first offending
entry: processing stops there with a traversal error (an archive containing
any offending entry never completes), the offending and all later entries
are not written, and every file the loop ever writes lies component-wise
strictly below the destination directory; however the entries extracted
before the first offending one remain on disk (there is no rollback). -/
theorem extract_hard_failure_no_outside_write (dest : String) (fs : FS) (entries : List ZipEntry) :
    extractLoop dest fs entries
      = ((entries.takeWhile (entryOk dest)).foldl (writeEntry dest) fs,
         if entries.all (entryOk dest) then none else some .pathTraversal)
    ∧ (∀ p d, (p, d) ∈ (extractLoop dest fs entries).1 →
        (p, d) ∈ fs ∨ ∃ extra, extra ≠ [] ∧
          splitSep p.data = splitSep (goClean dest).data ++ extra) := by
  refine ⟨extractLoop_characterization dest entries fs, ?_⟩
  intro p d hmem
  rw [extractLoop_characterization dest entries fs] at hmem
  simp only at hmem
  rcases mem_foldl_writeEntry dest (entries.takeWhile (entryOk dest)) fs p d hmem with
    hin | ⟨e, he, hd, hp⟩
  · exact Or.inl hin
  · right
    have hok : entryOk dest e = true := List.mem_takeWhile_imp he
    unfold entryOk at hok
    rw [hp]
    exact extract_written_descendant dest e.name hok

/-- C2, counterexample: an archive whose second entry is named ../../evil
is rejected as a whole (the loop stops with a traversal error and the evil
entry is not written), but the file extracted before it remains on disk:
the operation is partially extracted, contrary to the claim. -/
theorem extract_partial_before_traversal :
    extractLoop "/base/dest" [] [⟨"good.txt", false, [1, 2]⟩, ⟨"../../evil", false, [3]⟩]
      = ([("/base/dest/good.txt", [1, 2])], some .pathTraversal)
      ∧ ([("/base/dest/good.txt", [1, 2])] : FS) ≠ [] :=
  ⟨rfl, by decide⟩

/-- Witness for the amended C2 at a concrete archive with a traversal
entry. -/
theorem extract_hard_failure_witness :
    extractLoop "/base/dest" [] [⟨"good.txt", false, [1, 2]⟩, ⟨"../../evil", false, [3]⟩]
      = (([(⟨"good.txt", false, [1, 2]⟩ : ZipEntry), ⟨"../../evil", false, [3]⟩].takeWhile
            (entryOk "/base/dest")).foldl (writeEntry "/base/dest") [],
         some .pathTraversal)
      ∧ (("/base/dest/good.txt", [1, 2]) ∈ ([] : FS)
          ∨ ∃ extra, extra ≠ [] ∧
              splitSep ("/base/dest/good.txt" : String).data
                = splitSep (goClean "/base/dest").data ++ extra) := by
  have h := extract_hard_failure_no_outside_write "/base/dest" []
    [⟨"good.txt", false, [1, 2]⟩, ⟨"../../evil", false, [3]⟩]
  refine ⟨?_, ?_⟩
  · rw [h.1]
    rfl
  · exact h.2 "/base/dest/good.txt" [1, 2] (by rw [h.1]; decide)

/-! ### C6: resolve and relativeOf round trip -/

/-- A path segment in normalized form: nonempty, separator-free, and
neither the dot nor the dot-dot segment. -/
def normalSeg (s : List Char) : Prop :=
  s ≠ [] ∧ '/' ∉ s ∧ s ≠ ['.'] ∧ s ≠ ['.', '.']

instance (s : List Char) : Decidable (normalSeg s) := by
  unfold normalSeg
  infer_instance

/-- The absolute path consisting of the given segments. -/
def absRender (segs : List (List Char)) : String :=
  ⟨'/' :: joinSep segs⟩

/-- The relative path consisting of the given segments. -/
def relRender (segs : List (List Char)) : String :=
  ⟨joinSep segs⟩

theorem joinSep_cons (s : List Char) (rest : List (List Char)) (h : rest ≠ []) :
    joinSep (s :: rest) = s ++ '/' :: joinSep rest := by
  cases rest with
  | nil => exact absurd rfl h
  | cons t ts => rfl

theorem joinSep_shape (s : List Char) (rest : List (List Char)) :
    joinSep (s :: rest) = s ++ (if rest = [] then [] else '/' :: joinSep rest) := by
  cases rest with
  | nil => simp [joinSep]
  | cons t ts => simp [joinSep_cons]

theorem joinSep_ne_nil (s : List Char) (rest : List (List Char)) (h : s ≠ []) :
    joinSep (s :: rest) ≠ [] := by
  rw [joinSep_shape]
  intro hc
  rcases List.append_eq_nil.mp hc with ⟨h1, _⟩
  exact h h1

theorem splitSep_no_slash (l : List Char) (h : '/' ∉ l) : splitSep l = [l] := by
  induction l with
  | nil => rfl
  | cons c cs ih =>
    rw [splitSep_cons]
    have hc : c ≠ '/' := fun hc => h (hc ▸ List.mem_cons_self c cs)
    rw [if_neg hc, ih (fun hm => h (List.mem_cons_of_mem c hm))]

theorem splitSep_joinSep (segs : List (List Char)) (hne : segs ≠ [])
    (h : ∀ s ∈ segs, '/' ∉ s) : splitSep (joinSep segs) = segs := by
  induction segs with
  | nil => exact absurd rfl hne
  | cons s rest ih =>
    cases hr : rest with
    | nil =>
      subst hr
      exact splitSep_no_slash s (h s (List.mem_cons_self s []))
    | cons t ts =>
      rw [← hr]
      have hrne : rest ≠ [] := by rw [hr]; simp
      rw [joinSep_cons s rest hrne, splitSep_append,
        splitSep_no_slash s (h s (List.mem_cons_self s rest)),
        ih hrne (fun x hx => h x (List.mem_cons_of_mem s hx))]
      rfl

theorem cleanAux_normal (abs : Bool) (segs : List (List Char)) :
    ∀ acc, (∀ s ∈ segs, normalSeg s) → cleanAux abs acc segs = acc.reverse ++ segs := by
  induction segs with
  | nil => intro acc _; simp [cleanAux]
  | cons s rest ih =>
    intro acc h
    obtain ⟨h1, _, h3, h4⟩ := h s (List.mem_cons_self s rest)
    unfold cleanAux
    rw [if_neg h1, if_neg h3, if_neg h4]
    rw [ih (s :: acc) (fun x hx => h x (List.mem_cons_of_mem s hx))]
    simp

theorem cleanAux_drop_empty (abs : Bool) (acc : List (List Char)) (rest : List (List Char)) :
    cleanAux abs acc ([] :: rest) = cleanAux abs acc rest := rfl

theorem absRender_ne_empty (segs : List (List Char)) : absRender segs ≠ "" := by
  intro h
  have : ('/' :: joinSep segs) = ([] : List Char) := congrArg String.data h
  simp at this

theorem isAbs_absRender (segs : List (List Char)) : isAbs (absRender segs) = true := rfl

theorem goClean_absRender (segs : List (List Char)) (h : ∀ s ∈ segs, normalSeg s) :
    goClean (absRender segs) = absRender segs := by
  unfold goClean
  rw [if_neg (absRender_ne_empty segs), isAbs_absRender]
  cases hs : segs with
  | nil =>
    subst hs
    rfl
  | cons s rest =>
    rw [← hs]
    have hne : segs ≠ [] := by rw [hs]; simp
    have hslash : ∀ x ∈ segs, '/' ∉ x := fun x hx => (h x hx).2.1
    show (⟨render true (cleanAux true [] (splitSep ('/' :: joinSep segs)))⟩ : String) = _
    rw [splitSep_cons]
    simp only [ite_true]
    rw [splitSep_joinSep segs hne hslash, cleanAux_drop_empty, cleanAux_normal true segs [] h]
    rfl

theorem relRender_data (s0 : List Char) (rest : List (List Char)) :
    (relRender (s0 :: rest)).data = s0 ++ (if rest = [] then [] else '/' :: joinSep rest) :=
  joinSep_shape s0 rest

theorem isAbs_relRender (segs : List (List Char)) (hne : segs ≠ [])
    (h : ∀ s ∈ segs, normalSeg s) : isAbs (relRender segs) = false := by
  cases segs with
  | nil => exact absurd rfl hne
  | cons s0 rest =>
    obtain ⟨h1, h2, _, _⟩ := h s0 (List.mem_cons_self s0 rest)
    cases s0 with
    | nil => exact absurd rfl h1
    | cons c s0' =>
      have hc : c ≠ '/' := fun hc => h2 (hc ▸ List.mem_cons_self c s0')
      unfold isAbs
      rw [relRender_data]
      simp only [List.cons_append]
      cases hcc : ('/' :: List.nil : List Char) with
      | nil => simp at hcc
      | cons x xs => simp [hc]

theorem relRender_ne_empty (segs : List (List Char)) (hne : segs ≠ [])
    (h : ∀ s ∈ segs, normalSeg s) : relRender segs ≠ "" := by
  cases segs with
  | nil => exact absurd rfl hne
  | cons s0 rest =>
    obtain ⟨h1, _, _, _⟩ := h s0 (List.mem_cons_self s0 rest)
    intro hc
    have hd : (relRender (s0 :: rest)).data = [] := congrArg String.data hc
    rw [relRender_data] at hd
    exact h1 (List.append_eq_nil.mp hd).1

theorem goClean_relRender (segs : List (List Char)) (hne : segs ≠ [])
    (h : ∀ s ∈ segs, normalSeg s) : goClean (relRender segs) = relRender segs := by
  unfold goClean
  rw [if_neg (relRender_ne_empty segs hne h), isAbs_relRender segs hne h]
  show (⟨render false (cleanAux false [] (splitSep (joinSep segs)))⟩ : String) = _
  rw [splitSep_joinSep segs hne (fun x hx => (h x hx).2.1), cleanAux_normal false segs [] h]
  unfold render
  cases segs with
  | nil => exact absurd rfl hne
  | cons s0 rest => rfl

theorem sanitizePath_relRender (segs : List (List Char)) (hne : segs ≠ [])
    (h : ∀ s ∈ segs, normalSeg s) : SanitizePath (relRender segs) = relRender segs := by
  unfold SanitizePath
  rw [goClean_relRender segs hne h]
  cases segs with
  | nil => exact absurd rfl hne
  | cons s0 rest =>
    obtain ⟨h1, h2, _, _⟩ := h s0 (List.mem_cons_self s0 rest)
    cases s0 with
    | nil => exact absurd rfl h1
    | cons c s0' =>
      have hc : c ≠ '/' := fun hc => h2 (hc ▸ List.mem_cons_self c s0')
      have hd : (relRender ((c :: s0') :: rest)).data
          = c :: (s0' ++ (if rest = [] then [] else '/' :: joinSep rest)) := by
        rw [relRender_data]
        simp
      rw [show (relRender ((c :: s0') :: rest)) = ⟨(relRender ((c :: s0') :: rest)).data⟩ from rfl,
        hd]
      simp [hc]

theorem relRender_ne_dot (segs : List (List Char)) (hne : segs ≠ [])
    (h : ∀ s ∈ segs, normalSeg s) : relRender segs ≠ "." := by
  intro hc
  have hd : joinSep segs = ['.'] := congrArg String.data hc
  have : segs = [['.']] := by
    have := splitSep_joinSep segs hne (fun x hx => (h x hx).2.1)
    rw [hd] at this
    rw [← this]
    rfl
  rw [this] at h
  exact (h ['.'] (List.mem_cons_self _ _)).2.2.1 rfl

theorem joinSep_concat (a b : List (List Char)) (ha : a ≠ []) (hb : b ≠ []) :
    joinSep (a ++ b) = joinSep a ++ '/' :: joinSep b := by
  induction a with
  | nil => exact absurd rfl ha
  | cons x a' ih =>
    cases ha' : a' with
    | nil =>
      subst ha'
      rw [List.cons_append, List.nil_append, joinSep_cons x b hb]
      rfl
    | cons y ys =>
      rw [← ha']
      have ha'ne : a' ≠ [] := by rw [ha']; simp
      rw [List.cons_append, joinSep_cons x (a' ++ b) (by simp [ha'ne]),
        joinSep_cons x a' ha'ne, ih ha'ne]
      simp

theorem absRender_data_cons (segs : List (List Char)) :
    (absRender segs).data = '/' :: joinSep segs := rfl

theorem goJoin_renders (rsegs psegs : List (List Char))
    (hr : ∀ s ∈ rsegs, normalSeg s) (hp : ∀ s ∈ psegs, normalSeg s) (hne : psegs ≠ []) :
    goJoin (absRender rsegs) (relRender psegs) = absRender (rsegs ++ psegs) := by
  unfold goJoin
  rw [if_neg (by simp [absRender_ne_empty rsegs]),
    if_neg (absRender_ne_empty rsegs), if_neg (relRender_ne_empty psegs hne hp)]
  have harg : (absRender rsegs).data ++ '/' :: (relRender psegs).data
      = '/' :: (joinSep rsegs ++ '/' :: joinSep psegs) := by
    rw [absRender_data_cons]
    rfl
  rw [harg]
  unfold goClean
  rw [if_neg (by intro hc; simpa using congrArg String.data hc)]
  have hiabs : isAbs ⟨'/' :: (joinSep rsegs ++ '/' :: joinSep psegs)⟩ = true := rfl
  rw [hiabs]
  show (⟨render true (cleanAux true []
    (splitSep ('/' :: (joinSep rsegs ++ '/' :: joinSep psegs))))⟩ : String) = _
  rw [splitSep_cons]
  simp only [ite_true]
  rw [splitSep_append, splitSep_joinSep psegs hne (fun x hx => (hp x hx).2.1)]
  cases hrs : rsegs with
  | nil =>
    subst hrs
    rw [show splitSep (joinSep ([] : List (List Char))) = [[]] from rfl,
      show ([[]] ++ psegs : List (List Char)) = [] :: psegs from rfl,
      cleanAux_drop_empty, cleanAux_drop_empty, cleanAux_normal true psegs [] hp]
    rfl
  | cons r rrest =>
    rw [← hrs]
    have hrne : rsegs ≠ [] := by rw [hrs]; simp
    rw [splitSep_joinSep rsegs hrne (fun x hx => (hr x hx).2.1), cleanAux_drop_empty,
      cleanAux_normal true (rsegs ++ psegs) []
        (fun x hx => (List.mem_append.mp hx).elim (hr x) (hp x))]
    rfl

theorem absRender_isPrefixOf (rsegs psegs : List (List Char)) (hne : psegs ≠ []) :
    (absRender rsegs).data.isPrefixOf (absRender (rsegs ++ psegs)).data = true := by
  rw [List.isPrefixOf_iff_prefix]
  cases hrs : rsegs with
  | nil =>
    exact ⟨joinSep psegs, rfl⟩
  | cons r rrest =>
    rw [← hrs]
    have hrne : rsegs ≠ [] := by rw [hrs]; simp
    refine ⟨'/' :: joinSep psegs, ?_⟩
    rw [absRender_data_cons, absRender_data_cons, joinSep_concat rsegs psegs hrne hne]
    rfl

theorem validate_normalized (cwd : String) (rsegs psegs : List (List Char))
    (hr : ∀ s ∈ rsegs, normalSeg s) (hp : ∀ s ∈ psegs, normalSeg s) (hne : psegs ≠ []) :
    ValidatePath cwd (absRender rsegs) (relRender psegs) = .ok (absRender (rsegs ++ psegs)) := by
  unfold ValidatePath
  rw [goClean_absRender rsegs hr, sanitizePath_relRender psegs hne hp]
  rw [if_neg (by
    push_neg
    exact ⟨relRender_ne_empty psegs hne hp, relRender_ne_dot psegs hne hp⟩)]
  rw [goJoin_renders rsegs psegs hr hp hne]
  show (if ((goAbs cwd (absRender rsegs)).data.isPrefixOf
      (goAbs cwd (absRender (rsegs ++ psegs))).data) then _ else _) = _
  unfold goAbs
  rw [isAbs_absRender, isAbs_absRender]
  simp only [ite_true]
  rw [goClean_absRender rsegs hr,
    goClean_absRender (rsegs ++ psegs)
      (fun x hx => (List.mem_append.mp hx).elim (hr x) (hp x))]
  rw [absRender_isPrefixOf rsegs psegs hne]
  rfl

theorem absRender_ne_extend (rsegs psegs : List (List Char)) (hne : psegs ≠ [])
    (hr : ∀ s ∈ rsegs, normalSeg s) (hp : ∀ s ∈ psegs, normalSeg s) :
    absRender (rsegs ++ psegs) ≠ absRender rsegs := by
  intro hc
  have hd : joinSep (rsegs ++ psegs) = joinSep rsegs := by
    have h2 := congrArg String.data hc
    rw [absRender_data_cons, absRender_data_cons] at h2
    simpa using h2
  cases hrs : rsegs with
  | nil =>
    subst hrs
    rw [List.nil_append] at hd
    cases hps : psegs with
    | nil => exact hne hps
    | cons s0 rest =>
      subst hps
      obtain ⟨h1, _, _, _⟩ := hp s0 (List.mem_cons_self s0 rest)
      rw [joinSep_shape] at hd
      have : joinSep ([] : List (List Char)) = [] := rfl
      rw [this] at hd
      exact h1 (List.append_eq_nil.mp hd).1
  | cons r rrest =>
    subst hrs
    have hrne : (r :: rrest : List (List Char)) ≠ [] := by simp
    have hsp := splitSep_joinSep ((r :: rrest) ++ psegs)
      (by simp) (fun x hx => ((List.mem_append.mp hx).elim (hr x) (hp x)).2.1)
    rw [hd, splitSep_joinSep (r :: rrest) hrne (fun x hx => (hr x hx).2.1)] at hsp
    have hlen := congrArg List.length hsp
    simp at hlen
    exact hne hlen

theorem relLoop_strip (xs ts : List (List Char)) :
    relLoop xs (xs ++ ts) = relLoop [] ts := by
  induction xs with
  | nil => rfl
  | cons x xs ih =>
    rw [List.cons_append]
    show relLoop (x :: xs) (x :: (xs ++ ts)) = _
    unfold relLoop
    rw [if_pos rfl]
    exact ih

theorem absRender_ne_dot (segs : List (List Char)) : absRender segs ≠ "." := by
  intro hc
  have := congrArg String.data hc
  rw [absRender_data_cons] at this
  simp at this

theorem absRender_ne_root (s0 : List Char) (rest : List (List Char)) (h0 : s0 ≠ []) :
    absRender (s0 :: rest) ≠ "/" := by
  intro hc
  have := congrArg String.data hc
  rw [absRender_data_cons] at this
  have hj : joinSep (s0 :: rest) = [] := by
    have h2 : joinSep (s0 :: rest) = List.nil := by simpa using this
    exact h2
  exact joinSep_ne_nil s0 rest h0 hj

theorem relSegs_absRender_nil : relSegs (absRender []) = [[]] := rfl

theorem relSegs_absRender (segs : List (List Char)) (hne : segs ≠ [])
    (h : ∀ s ∈ segs, normalSeg s) : relSegs (absRender segs) = [] :: segs := by
  cases segs with
  | nil => exact absurd rfl hne
  | cons s0 rest =>
    obtain ⟨h1, _, _, _⟩ := h s0 (List.mem_cons_self s0 rest)
    unfold relSegs
    rw [if_neg (absRender_ne_empty _), if_neg (absRender_ne_root s0 rest h1)]
    rw [absRender_data_cons, splitSep_cons]
    simp only [ite_true]
    rw [splitSep_joinSep (s0 :: rest) (by simp) (fun x hx => (h x hx).2.1)]

theorem dotdot_not_lead (psegs : List (List Char)) (hne : psegs ≠ [])
    (hp : ∀ s ∈ psegs, normalSeg s) (hdd : ¬ (['.', '.'] <+: psegs.headI)) :
    (['.', '.'] : List Char).isPrefixOf (relRender psegs).data = false := by
  cases hb : (['.', '.'] : List Char).isPrefixOf (relRender psegs).data with
  | false => rfl
  | true =>
    exfalso
    obtain ⟨u, hu⟩ := List.isPrefixOf_iff_prefix.mp hb
    cases psegs with
    | nil => exact hne rfl
    | cons s0 rest =>
      obtain ⟨h1, _, _, _⟩ := hp s0 (List.mem_cons_self s0 rest)
      rw [show (relRender (s0 :: rest)).data = joinSep (s0 :: rest) from rfl,
        joinSep_shape] at hu
      cases s0 with
      | nil => exact h1 rfl
      | cons c1 s0' =>
        cases s0' with
        | nil =>
          simp only [List.cons_append, List.nil_append] at hu
          have hc1 : c1 = '.' := by
            have := congrArg (List.head? ·) hu
            simpa using this.symm
          have htl : ('.' :: u : List Char)
              = (if rest = [] then [] else '/' :: joinSep rest) := by
            have := congrArg (List.tail ·) hu
            simpa using this
          by_cases hrest : rest = []
          · rw [if_pos hrest] at htl
            simp at htl
          · rw [if_neg hrest] at htl
            have h4 := congrArg (List.head? ·) htl
            simp at h4
        | cons c2 s0'' =>
          apply hdd
          have hc1 : c1 = '.' ∧ c2 = '.' := by
            simp only [List.cons_append, List.nil_append] at hu
            have g1 := congrArg (List.head? ·) hu
            have g2 := congrArg (List.head? <| List.tail ·) hu
            constructor
            · simpa using g1.symm
            · simpa using g2.symm
          show ['.', '.'] <+: (c1 :: c2 :: s0'' : List Char)
          rw [hc1.1, hc1.2]
          exact ⟨s0'', rfl⟩

theorem getRel_normalized (cwd : String) (rsegs psegs : List (List Char))
    (hr : ∀ s ∈ rsegs, normalSeg s) (hp : ∀ s ∈ psegs, normalSeg s) (hne : psegs ≠ [])
    (hdd : ¬ (['.', '.'] <+: psegs.headI)) :
    GetRelativePath cwd (absRender rsegs) (absRender (rsegs ++ psegs))
      = .ok (relRender psegs) := by
  have hall : ∀ s ∈ rsegs ++ psegs, normalSeg s :=
    fun x hx => (List.mem_append.mp hx).elim (hr x) (hp x)
  unfold GetRelativePath
  unfold goAbs
  rw [isAbs_absRender, isAbs_absRender]
  simp only [ite_true]
  rw [goClean_absRender rsegs hr, goClean_absRender (rsegs ++ psegs) hall]
  have hrel : goRel (absRender rsegs) (absRender (rsegs ++ psegs)) = .ok (relRender psegs) := by
    unfold goRel
    rw [goClean_absRender rsegs hr, goClean_absRender (rsegs ++ psegs) hall]
    rw [if_neg (absRender_ne_extend rsegs psegs hne hr hp)]
    rw [if_neg (absRender_ne_dot rsegs)]
    rw [if_neg (by rw [isAbs_absRender, isAbs_absRender]; simp)]
    have hsegs : relSegs (absRender (rsegs ++ psegs))
        = relSegs (absRender rsegs) ++ psegs := by
      cases hrs : rsegs with
      | nil =>
        subst hrs
        rw [List.nil_append, relSegs_absRender_nil,
          relSegs_absRender psegs hne hp]
        rfl
      | cons r rrest =>
        subst hrs
        rw [relSegs_absRender (r :: rrest) (by simp) hr,
          relSegs_absRender ((r :: rrest) ++ psegs) (by simp) hall]
        simp
    rw [hsegs, relLoop_strip]
    rfl
  rw [hrel]
  show (if (['.', '.'] : List Char).isPrefixOf (relRender psegs).data = true
      then Except.error PathErr.outsideBasePath else Except.ok (relRender psegs))
    = Except.ok (relRender psegs)
  rw [dotdot_not_lead psegs hne hp hdd]
  rfl

/-- C6, amended: for every sandbox root given in normalized absolute form
and every relative path already in normalized relative form (nonempty
separator-free segments, none of them dot or dot-dot) whose first segment
does not begin with two dots, resolving with ValidatePath and mapping the
result back with GetRelativePath returns the original relative path. -/
theorem resolve_relative_roundtrip (cwd : String) (rsegs psegs : List (List Char))
    (hr : ∀ s ∈ rsegs, normalSeg s) (hp : ∀ s ∈ psegs, normalSeg s) (hne : psegs ≠ [])
    (hdd : ¬ (['.', '.'] <+: psegs.headI)) :
    (ValidatePath cwd (absRender rsegs) (relRender psegs)).bind
        (fun resolved => GetRelativePath cwd (absRender rsegs) resolved)
      = .ok (relRender psegs) := by
  rw [validate_normalized cwd rsegs psegs hr hp hne]
  show GetRelativePath cwd (absRender rsegs) (absRender (rsegs ++ psegs))
    = .ok (relRender psegs)
  exact getRel_normalized cwd rsegs psegs hr hp hne hdd

/-- C6, counterexample: the accepted relative path a/../b resolves inside
the root /r, but the round trip returns the normalized b, not a/../b, so
resolve-then-relativeOf is not the identity on every accepted input; the
accepted path ..data even makes the round trip fail, because
GetRelativePath rejects any relative result that begins with the two
characters dot dot. -/
theorem roundtrip_not_identity :
    ValidatePath "/x" "/r" "a/../b" = .ok "/r/b"
      ∧ GetRelativePath "/x" "/r" "/r/b" = .ok "b"
      ∧ ("b" : String) ≠ "a/../b"
      ∧ ValidatePath "/x" "/a" "..data" = .ok "/a/..data"
      ∧ GetRelativePath "/x" "/a" "/a/..data" = .error .outsideBasePath :=
  ⟨rfl, rfl, by decide, rfl, rfl⟩

/-- Witness for the amended C6 at root /r and relative path a/b. -/
theorem resolve_relative_roundtrip_witness :
    (ValidatePath "/x" (absRender [['r']]) (relRender [['a'], ['b']])).bind
        (fun resolved => GetRelativePath "/x" (absRender [['r']]) resolved)
      = .ok (relRender [['a'], ['b']]) :=
  resolve_relative_roundtrip "/x" [['r']] [['a'], ['b']] (by decide) (by decide) (by decide)
    (by decide)

/-! ### C3: chunked upload reassembly -/

theorem scratchWrite_lookup (sc : Scratch) (k k' : String × Nat) (d : List Nat) :
    (scratchWrite sc k d).lookup k' = if k' = k then some d else sc.lookup k' := by
  unfold scratchWrite
  rcases k with ⟨a, b⟩
  rw [lookup_cons_eq]
  by_cases h : k' = (a, b)
  · rw [if_pos h.symm, if_pos h]
  · rw [if_neg (fun hc => h hc.symm), if_neg h]
    exact lookup_filter_ne sc k' (a, b) h

theorem mem_of_nodup_bound_full (n : Nat) (full : List Nat) (hnd : full.Nodup)
    (hb : ∀ i ∈ full, i < n) (hl : full.length = n) : ∀ j, j < n → j ∈ full := by
  intro j hj
  have hsub : full.toFinset ⊆ Finset.range n := by
    intro x hx
    simp only [List.mem_toFinset] at hx
    exact Finset.mem_range.mpr (hb x hx)
  have hcard : full.toFinset.card = n := by
    rw [List.toFinset_card_of_nodup hnd, hl]
  have heq : full.toFinset = Finset.range n := by
    apply Finset.eq_of_subset_of_card_le hsub
    rw [hcard]
    simp
  have : j ∈ full.toFinset := by
    rw [heq]
    exact Finset.mem_range.mpr hj
  simpa using this

theorem assembleFrom_complete (sc : Scratch) (td : String) (data : Nat → List Nat) :
    ∀ (k i : Nat), (∀ j, j < k → sc.lookup (td, i + j) = some (data (i + j))) →
      assembleFrom sc td i k = (((List.range' i k).map data).flatten, true) := by
  intro k
  induction k with
  | zero =>
    intro i _
    rfl
  | succ k ih =>
    intro i h
    have h0 : sc.lookup (td, i) = some (data i) := by
      have := h 0 (Nat.succ_pos k)
      simpa using this
    show assembleFrom sc td i (k + 1) = _
    unfold assembleFrom
    rw [h0]
    have hr := ih (i + 1) (fun j hj => by
      have := h (j + 1) (by omega)
      rw [show i + (j + 1) = i + 1 + j by omega] at this
      exact this)
    rw [hr]
    rw [List.range'_succ]
    simp

theorem uploadChunk_step (uploadID : String) (c : ChunkUpload) (ch : List Nat)
    (st : UState) (j : Nat) (d : List Nat)
    (hsess : st.sessions = [(uploadID, { c with chunks := ch })])
    (hj : j ∉ ch) :
    UploadChunk st uploadID j d =
      (if ((ch.length + 1 : Nat) : Int) = c.totalChunks then
        finalizeChunkedUpload
          { st with
            scratch := scratchWrite st.scratch (c.tempDir, j) d,
            sessions := [(uploadID, { c with chunks := j :: ch })],
            progress := st.progress.Update uploadID
              (min (((ch.length + 1 : Nat) : Int) * c.chunkSize) c.totalSize) } uploadID
      else
        ({ st with
            scratch := scratchWrite st.scratch (c.tempDir, j) d,
            sessions := [(uploadID, { c with chunks := j :: ch })],
            progress := st.progress.Update uploadID
              (min (((ch.length + 1 : Nat) : Int) * c.chunkSize) c.totalSize) }, none)) := by
  unfold UploadChunk
  rw [hsess, lookup_cons_eq, if_pos rfl]
  have hins : insertIdx ch j = j :: ch := by
    unfold insertIdx
    rw [if_neg hj]
  simp only [hins, hsess, List.map_cons, List.map_nil, List.length_cons, ite_true]

theorem finalize_step (uploadID : String) (c : ChunkUpload) (ch : List Nat) (st : UState)
    (hsess : st.sessions = [(uploadID, { c with chunks := ch })])
    (hfiles : st.files = [])
    (n : Nat) (hn : (n : Int) = c.totalChunks)
    (data : Nat → List Nat)
    (hsc : ∀ j, j < n → st.scratch.lookup (c.tempDir, j) = some (data j)) :
    ∃ stF, finalizeChunkedUpload st uploadID = (stF, none)
      ∧ stF.sessions = []
      ∧ stF.files.lookup (goJoin c.destination c.filename)
          = some (((List.range n).map data).flatten) := by
  unfold finalizeChunkedUpload
  rw [hsess, lookup_cons_eq, if_pos rfl]
  have hfil : List.filter (fun e => e.1 ≠ uploadID)
      [(uploadID, { c with chunks := ch })] = [] := by
    simp
  have htn : ({ c with chunks := ch } : ChunkUpload).totalChunks.toNat = n := by
    show c.totalChunks.toNat = n
    rw [← hn]
    simp
  have hasm : assembleFrom st.scratch c.tempDir 0 n
      = (((List.range' 0 n).map data).flatten, true) :=
    assembleFrom_complete st.scratch c.tempDir data n 0
      (fun j hj => by simpa using hsc j hj)
  simp only [hfil, hfiles, htn, List.lookup_nil, Option.isSome_none, Bool.false_eq_true,
    ite_false, hasm]
  refine ⟨_, rfl, rfl, ?_⟩
  show (fsWrite [] (goJoin c.destination c.filename)
      (((List.range' 0 n).map data).flatten)).lookup (goJoin c.destination c.filename) = _
  unfold fsWrite
  rw [List.filter_nil, lookup_cons_eq, if_pos rfl, List.range_eq_range']

theorem runChunks_cons (uploadID : String) (st : UState) (j : Nat) (d : List Nat)
    (rest : List (Nat × List Nat)) :
    runChunks uploadID st ((j, d) :: rest)
      = (match UploadChunk st uploadID j d with
        | (st', none) => runChunks uploadID st' rest
        | (st', some e) => (st', some e)) := rfl

theorem runChunks_complete (uploadID : String) (c : ChunkUpload) (data : Nat → List Nat)
    (n : Nat) (hn : (n : Int) = c.totalChunks) :
    ∀ (todo ch : List Nat) (st : UState),
      (ch ++ todo).Nodup → (∀ i ∈ ch, i < n) → (∀ i ∈ todo, i < n) →
      ch.length + todo.length = n → todo ≠ [] →
      st.sessions = [(uploadID, { c with chunks := ch })] →
      (∀ i : Nat, st.scratch.lookup (c.tempDir, i)
          = if i ∈ ch then some (data i) else none) →
      st.files = [] →
      ∃ stF, runChunks uploadID st (todo.map (fun i => (i, data i))) = (stF, none)
        ∧ stF.sessions = []
        ∧ stF.files.lookup (goJoin c.destination c.filename)
            = some (((List.range n).map data).flatten) := by
  intro todo
  induction todo with
  | nil =>
    intro ch st _ _ _ _ hne _ _ _
    exact absurd rfl hne
  | cons j rest ih =>
    intro ch st hnd hchb htb hlen _ hsess hsc hfiles
    obtain ⟨hchnd, hjrnd, hdisj⟩ := List.nodup_append.mp hnd
    have hjch : j ∉ ch := fun hc => hdisj hc (List.mem_cons_self j rest)
    have hjn : j < n := htb j (List.mem_cons_self j rest)
    have hstep := uploadChunk_step uploadID c ch st j (data j) hsess hjch
    have hscratch' : ∀ i : Nat,
        (scratchWrite st.scratch (c.tempDir, j) (data j)).lookup (c.tempDir, i)
          = if i ∈ j :: ch then some (data i) else none := by
      intro i
      rw [scratchWrite_lookup]
      by_cases hij : i = j
      · subst hij
        rw [if_pos rfl, if_pos (List.mem_cons_self i ch)]
      · rw [if_neg (by simp [hij]), hsc i]
        by_cases hic : i ∈ ch
        · rw [if_pos hic, if_pos (List.mem_cons_of_mem j hic)]
        · rw [if_neg hic, if_neg (by simp [hij, hic])]
    have hlen' : ch.length + 1 + rest.length = n := by
      rw [← hlen]
      simp
      omega
    rw [List.map_cons]
    by_cases hfin : ((ch.length + 1 : Nat) : Int) = c.totalChunks
    · rw [if_pos hfin] at hstep
      have hreq : ch.length + 1 = n := by
        rw [← hn] at hfin
        exact_mod_cast hfin
      have hrest : rest = [] := by
        have : rest.length = 0 := by omega
        exact List.length_eq_zero.mp this
      subst hrest
      have hfull : ∀ i, i < n → i ∈ j :: ch :=
        mem_of_nodup_bound_full n (j :: ch) (List.nodup_cons.mpr ⟨hjch, hchnd⟩)
          (fun i hi => (List.mem_cons.mp hi).elim (fun h => h ▸ hjn) (hchb i))
          (by simpa using hreq)
      obtain ⟨stF, hfeq, hfs, hff⟩ := finalize_step uploadID c (j :: ch)
        { st with
          scratch := scratchWrite st.scratch (c.tempDir, j) (data j),
          sessions := [(uploadID, { c with chunks := j :: ch })],
          progress := st.progress.Update uploadID
            (min (((ch.length + 1 : Nat) : Int) * c.chunkSize) c.totalSize) }
        rfl hfiles n hn data
        (fun i hi => by rw [hscratch' i, if_pos (hfull i hi)])
      refine ⟨stF, ?_, hfs, hff⟩
      rw [runChunks_cons, hstep, hfeq]
      rfl
    · rw [if_neg hfin] at hstep
      have hrne : rest ≠ [] := by
        intro h0
        subst h0
        apply hfin
        have h1 : ch.length + 1 = n := by simpa using hlen'
        rw [← hn]
        exact_mod_cast h1
      have hnd' : ((j :: ch) ++ rest).Nodup := by
        have hperm : List.Perm (ch ++ j :: rest) (j :: (ch ++ rest)) := List.perm_middle
        exact hperm.nodup hnd
      obtain ⟨stF, hrun, hfs, hff⟩ := ih (j :: ch)
        { st with
          scratch := scratchWrite st.scratch (c.tempDir, j) (data j),
          sessions := [(uploadID, { c with chunks := j :: ch })],
          progress := st.progress.Update uploadID
            (min (((ch.length + 1 : Nat) : Int) * c.chunkSize) c.totalSize) }
        hnd'
        (fun i hi => (List.mem_cons.mp hi).elim (fun h => h ▸ hjn) (hchb i))
        (fun i hi => htb i (List.mem_cons_of_mem j hi))
        (by simpa using hlen')
        hrne rfl hscratch' hfiles
      refine ⟨stF, ?_, hfs, hff⟩
      rw [runChunks_cons, hstep]
      exact hrun

theorem ceil_div_bounds (t s : Nat) (ht : 0 < t) (hs : 0 < s) :
    t ≤ ((t + s - 1) / s) * s ∧ ((t + s - 1) / s - 1) * s < t ∧ 1 ≤ (t + s - 1) / s := by
  set q := (t + s - 1) / s with hq
  set r := (t + s - 1) % s with hr
  have hdm : s * q + r = t + s - 1 := Nat.div_add_mod (t + s - 1) s
  have hmod : r < s := Nat.mod_lt _ hs
  have hdm' : s * q + r + 1 = t + s := by
    rw [hdm]
    omega
  have hq1 : 1 ≤ q := by
    rcases Nat.eq_zero_or_pos q with h0 | h1
    · rw [h0, Nat.mul_zero] at hdm'
      omega
    · exact h1
  refine ⟨?_, ?_, hq1⟩
  · nlinarith [hdm', hmod]
  · have hsq : s ≤ q * s := by nlinarith [hq1]
    rw [Nat.sub_mul, Nat.one_mul, Nat.sub_lt_iff_lt_add hsq]
    nlinarith [hdm', hmod]

/-- C3: initializing a chunked-upload session computes
totalChunks as the ceiling of totalSize over chunkSize (stated as the two
defining inequalities of the ceiling), and for every submission order of
the totalChunks distinct indices, with each chunk holding its share of the
bytes (the chunk lengths sum to totalSize), the arrival of the last missing
index triggers finalization synchronously: afterwards the session is gone
from the store and the destination file holds exactly the concatenation of
the chunks in ascending index order, whose length is totalSize. -/
theorem chunked_upload_reassembles (cwd basePath filename destination : String) (totalSize chunkSize : Int)
    (uploadID : String) (c : ChunkUpload) (st0 : UState)
    (hT : 0 < totalSize) (hS : 0 < chunkSize)
    (hinit : InitChunkedUpload cwd basePath filename destination totalSize chunkSize uploadID
        ⟨[], [], [], []⟩ = .ok (c, st0))
    (n : Nat) (hn : n = c.totalChunks.toNat)
    (data : Nat → List Nat)
    (hsum : ((List.range n).map (fun i => (data i).length)).sum = totalSize.toNat)
    (order : List Nat) (hnodup : order.Nodup) (hlen : order.length = n)
    (hmemb : ∀ i ∈ order, i < n) :
    (totalSize ≤ (n : Int) * chunkSize ∧ ((n : Int) - 1) * chunkSize < totalSize)
    ∧ ∃ stF, runChunks uploadID st0 (order.map (fun i => (i, data i))) = (stF, none)
        ∧ stF.sessions.lookup uploadID = none
        ∧ stF.files.lookup (goJoin c.destination c.filename)
            = some (((List.range n).map data).flatten)
        ∧ (((List.range n).map data).flatten).length = totalSize.toNat := by
  unfold InitChunkedUpload at hinit
  cases hv : ValidatePath cwd basePath destination with
  | error e =>
    rw [hv] at hinit
    simp at hinit
  | ok destPath =>
    rw [hv] at hinit
    simp only [Except.ok.injEq, Prod.mk.injEq] at hinit
    obtain ⟨hc, hst⟩ := hinit
    set t := totalSize.toNat with htdef
    set s := chunkSize.toNat with hsdef
    have hts : totalSize = (t : Int) := (Int.toNat_of_nonneg hT.le).symm
    have hss : chunkSize = (s : Int) := (Int.toNat_of_nonneg hS.le).symm
    have htpos : 0 < t := by omega
    have hspos : 0 < s := by omega
    have htc : c.totalChunks = ((t + s - 1) / s : Nat) := by
      rw [← hc]
      show Int.tdiv (totalSize + chunkSize - 1) chunkSize = _
      rw [hts, hss]
      have harg : ((t : Int) + s - 1) = ((t + s - 1 : Nat) : Int) := by
        omega
      rw [harg]
      rfl
    have hnval : n = (t + s - 1) / s := by
      rw [hn, htc]
      exact Int.toNat_natCast _
    obtain ⟨hceil1, hceil2, hn1⟩ := ceil_div_bounds t s htpos hspos
    have hnint : (n : Int) = c.totalChunks := by
      rw [htc, hnval]
    have hnpos : 1 ≤ n := hnval ▸ hn1
    refine ⟨⟨?_, ?_⟩, ?_⟩
    · rw [hts, hss, hnval]
      exact_mod_cast hceil1
    · rw [hts, hss, hnval]
      have h2 := hceil2
      zify [hn1] at h2
      exact h2
    · have hsess0 : st0.sessions = [(uploadID, { c with chunks := [] })] := by
        rw [← hst, ← hc]
        rfl
      have hscr0 : st0.scratch = [] := by
        rw [← hst]
      have hfil0 : st0.files = [] := by
        rw [← hst]
      have hone : order ≠ [] := by
        intro h0
        rw [h0] at hlen
        simp at hlen
        omega
      obtain ⟨stF, h1, h2, h3⟩ := runChunks_complete uploadID c data n hnint order [] st0
        (by simpa using hnodup)
        (by intro i hi; simp at hi)
        hmemb
        (by simpa using hlen)
        hone
        hsess0
        (by
          intro i
          rw [hscr0]
          simp)
        hfil0
      refine ⟨stF, h1, ?_, h3, ?_⟩
      · rw [h2]
        rfl
      · rw [List.length_flatten, List.map_map]
        exact hsum

/-- Witness for C3: a 5-byte upload in chunks of 2 (3 chunks), submitted in
the order 2, 0, 1, reassembles to the in-order concatenation; and the
claim's concrete sizing instance: totalSize 10000000 with chunkSize 1000000
yields totalChunks 10. -/
theorem chunked_upload_reassembles_witness :
    (match InitChunkedUpload "/x" "/b" "big.bin" "d" 10000000 1000000 "u2"
        (⟨[], [], [], []⟩ : UState) with
      | .ok (c, _) => c.totalChunks
      | .error _ => 0) = 10
    ∧ ((5 : Int) ≤ ((3 : Nat) : Int) * 2 ∧ (((3 : Nat) : Int) - 1) * 2 < 5)
    ∧ ∃ stF, runChunks "u1"
        (⟨[("u1", ⟨"u1", "f.bin", "/b/docs", 5, 2, 3, [], "/tmp/filemanager-chunks/u1"⟩)],
          [], [], [("u1", ⟨"u1", "f.bin", 0, 0, 5, .pending, ""⟩)]⟩ : UState)
        ([2, 0, 1].map (fun i =>
          (i, if i = 0 then [10, 11] else if i = 1 then [12, 13] else [14])))
        = (stF, none)
      ∧ stF.sessions.lookup "u1" = none
      ∧ stF.files.lookup (goJoin "/b/docs" "f.bin")
          = some (((List.range 3).map
              (fun i => if i = 0 then [10, 11] else if i = 1 then [12, 13] else [14])).flatten)
      ∧ (((List.range 3).map
          (fun i => if i = 0 then [10, 11] else if i = 1 then [12, 13] else [14])).flatten).length
        = (5 : Int).toNat := by
  have h := chunked_upload_reassembles "/x" "/b" "f.bin" "docs" 5 2 "u1"
    ⟨"u1", "f.bin", "/b/docs", 5, 2, 3, [], "/tmp/filemanager-chunks/u1"⟩
    ⟨[("u1", ⟨"u1", "f.bin", "/b/docs", 5, 2, 3, [], "/tmp/filemanager-chunks/u1"⟩)],
      [], [], [("u1", ⟨"u1", "f.bin", 0, 0, 5, .pending, ""⟩)]⟩
    (by decide) (by decide) rfl 3 rfl
    (fun i => if i = 0 then [10, 11] else if i = 1 then [12, 13] else [14])
    (by decide) [2, 0, 1] (by decide) rfl (by decide)
  exact ⟨rfl, h⟩

end FileManager
